import Mathlib

/-!
Verification of the core pipeline of stellaris-tts-proxy: the playback
ordering buffer (src/playback_queue.cpp), the two-tier audio cache
(src/audio_cache.cpp), the bounded fetch thread pool
(src/fetch_thread_pool.cpp), the retry/backoff fetcher (src/tts_fetcher.cpp)
and text sanitization (src/utils.h, src/tts_processor.cpp).

The C++ classes are embedded shallowly: each class becomes a structure whose
fields mirror the data members, and each member function becomes a pure
function from the old state to the new state (plus its return value).
Mutex/condition-variable plumbing is dropped: every member function of the
source runs under the object's single lock, so the sequential semantics of
the critical sections is exactly the state-passing semantics used here.
`std::map` / `std::unordered_map` members are embedded as association lists
with unique keys; `std::chrono::steady_clock::now()` is embedded as a
logical clock (a `Nat` field stepped on every cache operation, so
timestamps of distinct operations are distinct).
-/

namespace StellarisTTS

/-! ### Association-list maps

`std::map<K, V>` / `std::unordered_map<K, V>` are embedded as
`List (K × V)`.  `mapFind` is `find`, `mapInsert` is `operator[] =`
(assign in place when the key is present, append otherwise; for `std::map`
appending a key larger than all present keys matches the sorted iteration
order the queue relies on), `mapErase` is `erase` (under the unique-keys
invariant of all reachable states, removing every pair with the key equals
removing the one found pair). -/

def mapFind {κ α : Type} [DecidableEq κ] (m : List (κ × α)) (k : κ) : Option α :=
  match m with
  | [] => none
  | (k₀, v) :: rest => if k₀ = k then some v else mapFind rest k

def mapInsert {κ α : Type} [DecidableEq κ] (m : List (κ × α)) (k : κ) (v : α) :
    List (κ × α) :=
  match m with
  | [] => [(k, v)]
  | (k₀, v₀) :: rest => if k₀ = k then (k, v) :: rest else (k₀, v₀) :: mapInsert rest k v

def mapErase {κ α : Type} [DecidableEq κ] (m : List (κ × α)) (k : κ) : List (κ × α) :=
  m.filter (fun e => decide (e.1 ≠ k))

theorem mapFind_insert_self {κ α : Type} [DecidableEq κ] (m : List (κ × α)) (k : κ) (v : α) :
    mapFind (mapInsert m k v) k = some v := by
  induction m with
  | nil => simp [mapInsert, mapFind]
  | cons e rest ih =>
      obtain ⟨k₀, v₀⟩ := e
      by_cases h : k₀ = k
      · simp [mapInsert, h, mapFind]
      · simp [mapInsert, h, mapFind, ih]

theorem mapFind_insert_ne {κ α : Type} [DecidableEq κ] (m : List (κ × α)) (k k' : κ) (v : α)
    (h : k' ≠ k) : mapFind (mapInsert m k v) k' = mapFind m k' := by
  have h' : ¬ k = k' := fun hh => h hh.symm
  induction m with
  | nil => simp [mapInsert, mapFind, h']
  | cons e rest ih =>
      obtain ⟨k₀, v₀⟩ := e
      by_cases h₀ : k₀ = k
      · subst h₀
        simp [mapInsert, mapFind, h']
      · simp [mapInsert, h₀, mapFind, ih]

theorem mapFind_erase_self {κ α : Type} [DecidableEq κ] (m : List (κ × α)) (k : κ) :
    mapFind (mapErase m k) k = none := by
  induction m with
  | nil => rfl
  | cons e rest ih =>
      obtain ⟨k₀, v₀⟩ := e
      by_cases h : k₀ = k
      · simpa [mapErase, List.filter_cons, h, mapFind] using ih
      · simpa [mapErase, List.filter_cons, h, mapFind] using ih

theorem mapFind_erase_ne {κ α : Type} [DecidableEq κ] (m : List (κ × α)) (k k' : κ)
    (h : k' ≠ k) : mapFind (mapErase m k) k' = mapFind m k' := by
  have h' : ¬ k = k' := fun hh => h hh.symm
  induction m with
  | nil => rfl
  | cons e rest ih =>
      obtain ⟨k₀, v₀⟩ := e
      by_cases h₀ : k₀ = k
      · subst h₀
        simpa [mapErase, List.filter_cons, mapFind, h'] using ih
      · by_cases h₁ : k₀ = k'
        · simp [mapErase, List.filter_cons, h₀, mapFind, h₁, h]
        · simpa [mapErase, List.filter_cons, h₀, mapFind, h₁] using ih

theorem mapErase_of_not_mem {κ α : Type} [DecidableEq κ] (m : List (κ × α)) (k : κ)
    (h : ∀ e ∈ m, e.1 ≠ k) : mapErase m k = m := by
  induction m with
  | nil => rfl
  | cons e rest ih =>
      have he : e.1 ≠ k := h e (List.mem_cons_self e rest)
      have hrest : ∀ x ∈ rest, x.1 ≠ k := fun x hx => h x (List.mem_cons_of_mem e hx)
      simpa [mapErase, List.filter_cons, he] using ih hrest

theorem mapInsert_of_not_mem {κ α : Type} [DecidableEq κ] (m : List (κ × α)) (k : κ) (v : α)
    (h : ∀ e ∈ m, e.1 ≠ k) : mapInsert m k v = m ++ [(k, v)] := by
  induction m with
  | nil => rfl
  | cons e rest ih =>
      obtain ⟨k₀, v₀⟩ := e
      have he : k₀ ≠ k := h (k₀, v₀) (List.mem_cons_self _ rest)
      have hrest : ∀ x ∈ rest, x.1 ≠ k := fun x hx => h x (List.mem_cons_of_mem _ hx)
      simp [mapInsert, he, ih hrest]

theorem mapInsert_keys_of_find {κ α : Type} [DecidableEq κ] (m : List (κ × α)) (k : κ)
    (v v' : α) (h : mapFind m k = some v) :
    (mapInsert m k v').map Prod.fst = m.map Prod.fst := by
  induction m with
  | nil => simp [mapFind] at h
  | cons e rest ih =>
      obtain ⟨k₀, v₀⟩ := e
      by_cases h₀ : k₀ = k
      · simp [mapInsert, h₀]
      · simp [mapFind, h₀] at h
        simp [mapInsert, h₀, ih h]

theorem mapFind_mem {κ α : Type} [DecidableEq κ] (m : List (κ × α)) (k : κ) (v : α)
    (h : mapFind m k = some v) : (k, v) ∈ m := by
  induction m with
  | nil => simp [mapFind] at h
  | cons e rest ih =>
      obtain ⟨k₀, v₀⟩ := e
      by_cases h₀ : k₀ = k
      · subst h₀
        simp [mapFind] at h
        subst h
        exact List.mem_cons_self _ _
      · simp [mapFind, h₀] at h
        exact List.mem_cons_of_mem _ (ih h)

theorem mapInsert_forall {κ α : Type} [DecidableEq κ] (m : List (κ × α)) (k : κ) (v : α)
    (P : κ × α → Prop) (hm : ∀ e ∈ m, P e) (hv : P (k, v)) :
    ∀ e ∈ mapInsert m k v, P e := by
  induction m with
  | nil => simpa [mapInsert] using hv
  | cons e₀ rest ih =>
      obtain ⟨k₀, v₀⟩ := e₀
      intro e he
      by_cases h₀ : k₀ = k
      · simp [mapInsert, h₀] at he
        rcases he with he | he
        · subst he; exact hv
        · exact hm e (List.mem_cons_of_mem _ he)
      · simp only [mapInsert, h₀, if_false] at he
        rcases List.mem_cons.mp he with he | he
        · subst he; exact hm _ (List.mem_cons_self _ _)
        · exact ih (fun x hx => hm x (List.mem_cons_of_mem _ hx)) e he

/-! ### Playback queue — src/playback_queue.cpp

`AudioItem` (src/playback_queue.h lines 35-48) and `PlaybackQueue`
(lines 52-86).  The condition variable and mutex are dropped (see the file
comment); `WaitForNextReady` is embedded as the exit condition of its wait
loop: `some (item, state)` when the loop would return `true` with `item`,
`none` when the caller would block or sees the shutdown flag. -/

structure AudioItem where
  sequenceNumber : Nat
  text : String
  audioData : List Nat
  cachePath : String
  isReady : Bool
  failed : Bool
deriving Repr, DecidableEq

structure PlaybackQueue where
  pendingItems : List (Nat × AudioItem)
  nextSequenceNumber : Nat
  nextToPlay : Nat
  shutdownRequested : Bool
deriving Repr, DecidableEq

/-- The freshly constructed queue: both counters start at 1
(src/playback_queue.h lines 57-58). -/
def PlaybackQueue.mk0 : PlaybackQueue :=
  { pendingItems := [], nextSequenceNumber := 1, nextToPlay := 1, shutdownRequested := false }

/-- PlaybackQueue::AddRequest (src/playback_queue.cpp lines 33-47). -/
def PlaybackQueue.AddRequest (q : PlaybackQueue) (text : String) : Nat × PlaybackQueue :=
  let seq := q.nextSequenceNumber
  let item : AudioItem :=
    { sequenceNumber := seq, text := text, audioData := [], cachePath := "",
      isReady := false, failed := false }
  (seq, { q with nextSequenceNumber := seq + 1,
                 pendingItems := mapInsert q.pendingItems seq item })

/-- PlaybackQueue::MarkReady (src/playback_queue.cpp lines 49-65). -/
def PlaybackQueue.MarkReady (q : PlaybackQueue) (seq : Nat) (audio : List Nat)
    (cachePath : Option String) : PlaybackQueue :=
  match mapFind q.pendingItems seq with
  | some item =>
      let item' : AudioItem :=
        { item with audioData := audio,
                    cachePath := match cachePath with
                                 | some p => p
                                 | none => item.cachePath,
                    isReady := true }
      { q with pendingItems := mapInsert q.pendingItems seq item' }
  | none => q

/-- PlaybackQueue::MarkFailed (src/playback_queue.cpp lines 67-78). -/
def PlaybackQueue.MarkFailed (q : PlaybackQueue) (seq : Nat) : PlaybackQueue :=
  match mapFind q.pendingItems seq with
  | some item =>
      { q with pendingItems :=
          mapInsert q.pendingItems seq { item with failed := true, isReady := true } }
  | none => q

/-- PlaybackQueue::WaitForNextReady (src/playback_queue.cpp lines 80-109), as
the exit condition of its wait loop: `none` both when the loop would block on
the condition variable and when the shutdown flag makes it return `false`. -/
def PlaybackQueue.WaitForNextReady (q : PlaybackQueue) : Option (AudioItem × PlaybackQueue) :=
  if q.shutdownRequested then none
  else
    match mapFind q.pendingItems q.nextToPlay with
    | some item =>
        if item.isReady then
          some (item, { q with pendingItems := mapErase q.pendingItems q.nextToPlay })
        else none
    | none => none

/-- PlaybackQueue::Remove (src/playback_queue.cpp lines 111-132): advance
`nextToPlay` when `seq` equals it, then erase every pending entry whose key
is `< seq`. -/
def PlaybackQueue.Remove (q : PlaybackQueue) (seq : Nat) : PlaybackQueue :=
  let q₁ := if seq = q.nextToPlay then { q with nextToPlay := seq + 1 } else q
  { q₁ with pendingItems := q₁.pendingItems.filter (fun e => decide (¬ e.1 < seq)) }

/-! ### The pipeline around the queue

A producer run is a list of `AddRequest` calls interleaved with
`MarkReady`/`MarkFailed` calls (`PQOp`); the consumer side is the playback
coordinator loop of src/tts_processor.cpp lines 128-154, which repeatedly
calls `WaitForNextReady` and then `Remove` on the returned item. -/

inductive PQOp where
  | add (text : String)
  | ready (seq : Nat) (audio : List Nat) (cachePath : Option String)
  | failed (seq : Nat)
deriving Repr

def applyOp (q : PlaybackQueue) : PQOp → PlaybackQueue
  | .add text => (q.AddRequest text).2
  | .ready seq audio cachePath => q.MarkReady seq audio cachePath
  | .failed seq => q.MarkFailed seq

def applyOps (q : PlaybackQueue) : List PQOp → PlaybackQueue
  | [] => q
  | op :: rest => applyOps (applyOp q op) rest

def countAdds : List PQOp → Nat
  | [] => 0
  | .add _ :: rest => countAdds rest + 1
  | .ready _ _ _ :: rest => countAdds rest
  | .failed _ :: rest => countAdds rest

/-- The sequence numbers handed back by the `AddRequest` calls of `ops`, in
submission order. -/
def submissionSeqs (q : PlaybackQueue) : List PQOp → List Nat
  | [] => []
  | .add text :: rest => (q.AddRequest text).1 :: submissionSeqs (applyOp q (.add text)) rest
  | .ready seq audio cp :: rest => submissionSeqs (applyOp q (.ready seq audio cp)) rest
  | .failed seq :: rest => submissionSeqs (applyOp q (.failed seq)) rest

/-- The consumer loop: repeated `WaitForNextReady` + `Remove`
(src/tts_processor.cpp lines 128-154), collecting the returned items. -/
def drainLoop : PlaybackQueue → Nat → List AudioItem
  | _, 0 => []
  | q, fuel + 1 =>
    match q.WaitForNextReady with
    | none => []
    | some (item, q₁) => item :: drainLoop (q₁.Remove item.sequenceNumber) fuel

theorem MarkReady_nextSequenceNumber (q : PlaybackQueue) (seq : Nat) (audio : List Nat)
    (cp : Option String) : (q.MarkReady seq audio cp).nextSequenceNumber = q.nextSequenceNumber := by
  unfold PlaybackQueue.MarkReady
  cases mapFind q.pendingItems seq <;> rfl

theorem MarkFailed_nextSequenceNumber (q : PlaybackQueue) (seq : Nat) :
    (q.MarkFailed seq).nextSequenceNumber = q.nextSequenceNumber := by
  unfold PlaybackQueue.MarkFailed
  cases mapFind q.pendingItems seq <;> rfl

theorem submissionSeqs_eq (ops : List PQOp) :
    ∀ q : PlaybackQueue,
      submissionSeqs q ops = List.range' q.nextSequenceNumber (countAdds ops) := by
  induction ops with
  | nil => intro q; rfl
  | cons op rest ih =>
      intro q
      cases op with
      | add text =>
          show (q.AddRequest text).1 :: submissionSeqs (applyOp q (.add text)) rest
              = List.range' q.nextSequenceNumber (countAdds rest + 1)
          rw [List.range'_succ, ih (applyOp q (.add text))]
          rfl
      | ready seq audio cp =>
          simpa [submissionSeqs, countAdds, applyOp, MarkReady_nextSequenceNumber] using
            ih (applyOp q (.ready seq audio cp))
      | failed seq =>
          simpa [submissionSeqs, countAdds, applyOp, MarkFailed_nextSequenceNumber] using
            ih (applyOp q (.failed seq))

/-- The inductive state invariant after `n` submissions and any interleaving
of `MarkReady`/`MarkFailed` calls: the pending keys are exactly
`1, …, n` in order, each stored item records its own key as its sequence
number, and the two cursors sit at `n + 1` and `1`. -/
def QueueInv (q : PlaybackQueue) (n : Nat) : Prop :=
  q.nextSequenceNumber = n + 1 ∧ q.nextToPlay = 1 ∧ q.shutdownRequested = false ∧
  q.pendingItems.map Prod.fst = List.range' 1 n ∧
  ∀ e ∈ q.pendingItems, e.2.sequenceNumber = e.1

theorem QueueInv_applyOp_add (q : PlaybackQueue) (n : Nat) (text : String)
    (h : QueueInv q n) : QueueInv (applyOp q (.add text)) (n + 1) := by
  obtain ⟨h1, h2, h3, h4, h5⟩ := h
  have hfresh : ∀ e ∈ q.pendingItems, e.1 ≠ q.nextSequenceNumber := by
    intro e he
    have : e.1 ∈ q.pendingItems.map Prod.fst := List.mem_map_of_mem Prod.fst he
    rw [h4] at this
    rw [List.mem_range'_1] at this
    omega
  refine ⟨by simp [applyOp, PlaybackQueue.AddRequest, h1], by simp [applyOp, PlaybackQueue.AddRequest, h2],
    by simp [applyOp, PlaybackQueue.AddRequest, h3], ?_, ?_⟩
  · rw [show (applyOp q (.add text)).pendingItems
        = mapInsert q.pendingItems q.nextSequenceNumber
            { sequenceNumber := q.nextSequenceNumber, text := text, audioData := [],
              cachePath := "", isReady := false, failed := false } from rfl]
    rw [mapInsert_of_not_mem _ _ _ hfresh, List.map_append, h4, h1]
    simp [List.range'_1_concat, Nat.add_comm]
  · rw [show (applyOp q (.add text)).pendingItems
        = mapInsert q.pendingItems q.nextSequenceNumber
            { sequenceNumber := q.nextSequenceNumber, text := text, audioData := [],
              cachePath := "", isReady := false, failed := false } from rfl]
    rw [mapInsert_of_not_mem _ _ _ hfresh]
    intro e he
    rcases List.mem_append.mp he with he | he
    · exact h5 e he
    · simp at he
      subst he
      rfl

theorem QueueInv_applyOp_ready (q : PlaybackQueue) (n : Nat) (seq : Nat) (audio : List Nat)
    (cp : Option String) (h : QueueInv q n) : QueueInv (applyOp q (.ready seq audio cp)) n := by
  obtain ⟨h1, h2, h3, h4, h5⟩ := h
  show QueueInv (q.MarkReady seq audio cp) n
  unfold PlaybackQueue.MarkReady
  cases hfind : mapFind q.pendingItems seq with
  | none => exact ⟨h1, h2, h3, h4, h5⟩
  | some item =>
      have hitem : item.sequenceNumber = seq := h5 (seq, item) (mapFind_mem _ _ _ hfind)
      refine ⟨h1, h2, h3, ?_, ?_⟩
      · simpa [mapInsert_keys_of_find _ _ _ _ hfind] using h4
      · exact mapInsert_forall _ _ _ _ h5 hitem

theorem QueueInv_applyOp_failed (q : PlaybackQueue) (n : Nat) (seq : Nat)
    (h : QueueInv q n) : QueueInv (applyOp q (.failed seq)) n := by
  obtain ⟨h1, h2, h3, h4, h5⟩ := h
  show QueueInv (q.MarkFailed seq) n
  unfold PlaybackQueue.MarkFailed
  cases hfind : mapFind q.pendingItems seq with
  | none => exact ⟨h1, h2, h3, h4, h5⟩
  | some item =>
      have hitem : item.sequenceNumber = seq := h5 (seq, item) (mapFind_mem _ _ _ hfind)
      refine ⟨h1, h2, h3, ?_, ?_⟩
      · simpa [mapInsert_keys_of_find _ _ _ _ hfind] using h4
      · exact mapInsert_forall _ _ _ _ h5 hitem

theorem QueueInv_applyOps (ops : List PQOp) :
    ∀ (q : PlaybackQueue) (n : Nat), QueueInv q n →
      QueueInv (applyOps q ops) (countAdds ops + n) := by
  induction ops with
  | nil => intro q n h; simpa [applyOps, countAdds] using h
  | cons op rest ih =>
      intro q n h
      cases op with
      | add text =>
          have := ih (applyOp q (.add text)) (n + 1) (QueueInv_applyOp_add q n text h)
          rw [show countAdds (.add text :: rest) + n = countAdds rest + (n + 1) by
            simp [countAdds]; omega]
          exact this
      | ready seq audio cp =>
          exact ih _ n (QueueInv_applyOp_ready q n seq audio cp h)
      | failed seq =>
          exact ih _ n (QueueInv_applyOp_failed q n seq h)

theorem drainLoop_ready (n : Nat) :
    ∀ (a : Nat) (q : PlaybackQueue),
      q.shutdownRequested = false →
      q.nextToPlay = a →
      q.pendingItems.map Prod.fst = List.range' a n →
      (∀ e ∈ q.pendingItems, e.2.sequenceNumber = e.1) →
      (∀ e ∈ q.pendingItems, e.2.isReady = true) →
      (drainLoop q n).map AudioItem.sequenceNumber = List.range' a n := by
  induction n with
  | zero => intro a q _ _ _ _ _; simp [drainLoop]
  | succ m ih =>
      intro a q hsd hnext hkeys hseq hready
      rw [List.range'_succ] at hkeys
      rcases hp : q.pendingItems with _ | ⟨⟨k, item⟩, rest⟩
      · rw [hp] at hkeys; simp at hkeys
      · rw [hp] at hkeys hseq hready
        simp only [List.map_cons, List.cons.injEq] at hkeys
        obtain ⟨hka, hrest⟩ := hkeys
        subst hka
        have hitem_seq : item.sequenceNumber = k :=
          hseq (k, item) (List.mem_cons_self _ _)
        have hitem_ready : item.isReady = true :=
          hready (k, item) (List.mem_cons_self _ _)
        have hrest_keys : ∀ e ∈ rest, k + 1 ≤ e.1 := by
          intro e he
          have : e.1 ∈ rest.map Prod.fst := List.mem_map_of_mem Prod.fst he
          rw [hrest, List.mem_range'_1] at this
          omega
        have hwait : q.WaitForNextReady
            = some (item, { q with pendingItems := rest }) := by
          unfold PlaybackQueue.WaitForNextReady
          rw [hsd, hnext, hp]
          have herase : mapErase ((k, item) :: rest) k = rest := by
            have hne : ∀ e ∈ rest, e.1 ≠ k := by
              intro e he h0
              have := hrest_keys e he
              omega
            simpa [mapErase, List.filter_cons] using mapErase_of_not_mem rest k hne
          simp [mapFind, hitem_ready, herase]
        rw [show drainLoop q (m + 1)
            = item :: drainLoop (({ q with pendingItems := rest } : PlaybackQueue).Remove
                item.sequenceNumber) m by
          simp [drainLoop, hwait]]
        have hremove : ({ q with pendingItems := rest } : PlaybackQueue).Remove
            item.sequenceNumber
            = { q with pendingItems := rest, nextToPlay := k + 1 } := by
          unfold PlaybackQueue.Remove
          rw [hitem_seq]
          simp [hnext]
          intro a b hab
          have := hrest_keys (a, b) hab
          omega
        rw [hremove]
        have htail := ih (k + 1) { q with pendingItems := rest, nextToPlay := k + 1 }
          hsd rfl hrest
          (fun e he => hseq e (List.mem_cons_of_mem _ he))
          (fun e he => hready e (List.mem_cons_of_mem _ he))
        rw [List.range'_succ]
        simp [htail, hitem_seq]

/-- C1: for every finite sequence of `AddRequest` calls interleaved in any
order with `MarkReady`/`MarkFailed` calls (the hypothesis says every still
pending request has been resolved, so the consumer never blocks forever),
the items returned by repeated `WaitForNextReady`+`Remove` carry exactly the
sequence numbers handed out by the `AddRequest` calls, in submission order:
no number is skipped, none is returned twice, and the result does not depend
on the order of the `MarkReady`/`MarkFailed` calls. -/
theorem wait_remove_returns_submission_order (ops : List PQOp)
    (hready : ∀ e ∈ (applyOps PlaybackQueue.mk0 ops).pendingItems, e.2.isReady = true) :
    (drainLoop (applyOps PlaybackQueue.mk0 ops) (countAdds ops)).map AudioItem.sequenceNumber
      = submissionSeqs PlaybackQueue.mk0 ops := by
  have hinv := QueueInv_applyOps ops PlaybackQueue.mk0 0
    ⟨rfl, rfl, rfl, rfl, by intro e he; simp [PlaybackQueue.mk0] at he⟩
  obtain ⟨h1, h2, h3, h4, h5⟩ := hinv
  rw [submissionSeqs_eq]
  have := drainLoop_ready (countAdds ops + 0) 1 (applyOps PlaybackQueue.mk0 ops) h3 h2 h4 h5 hready
  simpa [PlaybackQueue.mk0] using this

/-- C1 witness: the spec's own concrete example — submit "A", "B", "C"
(sequence numbers 1, 2, 3), mark 2 ready, then 3, then 1; the consumption
order is 1, 2, 3 regardless of the completion order. -/
theorem wait_remove_returns_submission_order_witness :
    (drainLoop (applyOps PlaybackQueue.mk0
        [.add "A", .add "B", .add "C", .ready 2 [20] none, .ready 3 [30] none,
         .ready 1 [10] none])
      (countAdds [.add "A", .add "B", .add "C", .ready 2 [20] none, .ready 3 [30] none,
         .ready 1 [10] none])).map AudioItem.sequenceNumber
      = submissionSeqs PlaybackQueue.mk0
        [.add "A", .add "B", .add "C", .ready 2 [20] none, .ready 3 [30] none,
         .ready 1 [10] none] :=
  wait_remove_returns_submission_order _ (by decide)

/-- A concrete ready item with sequence number 3, used by the C7
counterexample state. -/
def staleItem : AudioItem :=
  { sequenceNumber := 3, text := "x", audioData := [], cachePath := "",
    isReady := true, failed := false }

/-- A queue state whose pending map holds exactly the key 3 with
`nextToPlay = 3`, for the C7 counterexample. -/
def staleState : PlaybackQueue :=
  { pendingItems := [(3, staleItem)], nextSequenceNumber := 4, nextToPlay := 3,
    shutdownRequested := false }

/-- C7 counterexample: the claim says `Remove(seq)` deletes every pending
entry with sequence number `< the new nextToPlay`.  At the state with
`pendingItems = {3 ↦ item}` and `nextToPlay = 3`, `Remove 3` sets
`nextToPlay` to 4 yet leaves the entry with key 3 (and 3 < 4) in the map,
because the code prunes keys `< seq`, not `< the new nextToPlay`. -/
theorem Remove_keeps_entry_below_new_cursor :
    (staleState.Remove 3).nextToPlay = 4
    ∧ mapFind (staleState.Remove 3).pendingItems 3 = some staleItem := by
  constructor <;> rfl

theorem mapFind_filter_ge (m : List (Nat × AudioItem)) (seq k : Nat) :
    mapFind (m.filter (fun e => decide (¬ e.1 < seq))) k
      = if k < seq then none else mapFind m k := by
  induction m with
  | nil =>
      show (none : Option AudioItem) = if k < seq then none else none
      split <;> rfl
  | cons e rest ih =>
      obtain ⟨k₀, v₀⟩ := e
      rw [List.filter_cons]
      by_cases h₀ : k₀ < seq
      · rw [if_neg (by simp [h₀]), ih]
        by_cases hk : k < seq
        · simp [hk]
        · simp [hk, mapFind, show ¬ k₀ = k by omega]
      · rw [if_pos (by simp [h₀])]
        by_cases h₁ : k₀ = k
        · subst h₁
          simp [mapFind, h₀]
        · have hstep : mapFind ((k₀, v₀) :: rest.filter (fun e => decide (¬ e.1 < seq))) k
              = mapFind (rest.filter (fun e => decide (¬ e.1 < seq))) k := by
            simp [mapFind, h₁]
          rw [hstep, ih]
          by_cases hk : k < seq
          · simp [hk]
          · simp [hk, mapFind, h₁]

/-- C7 (amended): `Remove(seq)` advances `nextToPlay` to `seq + 1` exactly
when `seq` equals the current `nextToPlay` (leaving it unchanged otherwise),
and deletes from the pending map exactly the entries with sequence number
`< seq` — not `< the new nextToPlay` — leaving all entries with key `≥ seq`
unchanged. -/
theorem Remove_advances_cursor_and_prunes_below_seq (q : PlaybackQueue) (seq k : Nat) :
    ((q.Remove seq).nextToPlay = if seq = q.nextToPlay then seq + 1 else q.nextToPlay)
    ∧ (mapFind (q.Remove seq).pendingItems k
        = if k < seq then none else mapFind q.pendingItems k) := by
  constructor
  · unfold PlaybackQueue.Remove
    split <;> rfl
  · unfold PlaybackQueue.Remove
    split <;> exact mapFind_filter_ge _ _ _

/-- C10: when `WaitForNextReady` returns an item, the item's entry has
already been erased from the pending map; a subsequent `MarkReady` or
`MarkFailed` for that sequence number leaves the state unchanged, and the
follow-up `Remove` only advances `nextToPlay` (when the state satisfies the
reachable-state invariant that every pending key is ≥ `nextToPlay` and each
item records its key). -/
theorem WaitForNextReady_erases_before_return (q : PlaybackQueue) (item : AudioItem)
    (q' : PlaybackQueue) (audio : List Nat) (cp : Option String)
    (hw : q.WaitForNextReady = some (item, q'))
    (hseq : ∀ e ∈ q.pendingItems, e.2.sequenceNumber = e.1)
    (hkeys : ∀ e ∈ q.pendingItems, q.nextToPlay ≤ e.1) :
    mapFind q'.pendingItems item.sequenceNumber = none
    ∧ q'.MarkReady item.sequenceNumber audio cp = q'
    ∧ q'.MarkFailed item.sequenceNumber = q'
    ∧ q'.Remove item.sequenceNumber = { q' with nextToPlay := item.sequenceNumber + 1 } := by
  unfold PlaybackQueue.WaitForNextReady at hw
  by_cases hsd : q.shutdownRequested
  · simp [hsd] at hw
  · rw [if_neg hsd] at hw
    cases hfind : mapFind q.pendingItems q.nextToPlay with
    | none => rw [hfind] at hw; simp at hw
    | some item₀ =>
        rw [hfind] at hw
        by_cases hr : item₀.isReady = true
        · simp only [hr, if_true] at hw
          rw [Option.some.injEq, Prod.mk.injEq] at hw
          obtain ⟨hitem, hq'⟩ := hw
          subst hitem
          subst hq'
          have hseq₀ : item₀.sequenceNumber = q.nextToPlay :=
            hseq (q.nextToPlay, item₀) (mapFind_mem _ _ _ hfind)
          have hgone : mapFind (mapErase q.pendingItems q.nextToPlay)
              item₀.sequenceNumber = none := by
            rw [hseq₀]
            exact mapFind_erase_self _ _
          refine ⟨hgone, ?_, ?_, ?_⟩
          · unfold PlaybackQueue.MarkReady
            simp only []
            rw [hgone]
          · unfold PlaybackQueue.MarkFailed
            simp only []
            rw [hgone]
          · unfold PlaybackQueue.Remove
            have hkeep : (mapErase q.pendingItems q.nextToPlay).filter
                (fun e => decide (¬ e.1 < q.nextToPlay))
                  = mapErase q.pendingItems q.nextToPlay := by
              apply List.filter_eq_self.mpr
              intro e he
              have hemem : e ∈ q.pendingItems := List.mem_of_mem_filter he
              have := hkeys e hemem
              simp
              omega
            simp [hseq₀, hkeep]
            intro a b hab
            exact hkeys (a, b) (List.mem_of_mem_filter hab)
        · simp only [hr, if_false] at hw
          simp at hw

/-- The single ready item of the C10 witness state. -/
def singleReadyItem : AudioItem :=
  { sequenceNumber := 1, text := "t", audioData := [9], cachePath := "",
    isReady := true, failed := false }

/-- The one-entry ready queue used as the C10 witness state. -/
def singleReadyState : PlaybackQueue :=
  { pendingItems := [(1, singleReadyItem)], nextSequenceNumber := 2, nextToPlay := 1,
    shutdownRequested := false }

/-- The state after `WaitForNextReady` returns from `singleReadyState`. -/
def singleDrainedState : PlaybackQueue :=
  { pendingItems := [], nextSequenceNumber := 2, nextToPlay := 1,
    shutdownRequested := false }

/-- C10 witness: a one-entry queue whose head is ready. -/
theorem WaitForNextReady_erases_before_return_witness :
    mapFind singleDrainedState.pendingItems 1 = none
    ∧ singleDrainedState.MarkReady 1 [7] none = singleDrainedState
    ∧ singleDrainedState.MarkFailed 1 = singleDrainedState
    ∧ singleDrainedState.Remove 1
      = { singleDrainedState with nextToPlay := 2 } := by
  have h := WaitForNextReady_erases_before_return singleReadyState singleReadyItem
    singleDrainedState [7] none rfl
    (by simp [singleReadyState, singleReadyItem]) (by simp [singleReadyState])
  exact h

/-! ### Audio cache — src/audio_cache.cpp

`AudioCache` (src/audio_cache.h lines 34-66): the in-memory tier
`std::unordered_map<std::string, CacheEntry>` becomes an association list,
the disk tier (one file per cache key, `LoadFromDisk`/`SaveToDisk`) becomes
a second association list guarded by `diskCacheEnabled`, and
`std::chrono::steady_clock` becomes a logical clock stepped on every
timestamp-taking operation.  `GenerateCacheKey` hashes the combined string
`text + "|" + server + "|" + voice` with SHA-256; the hash itself is kept
as a parameter, since every property proved here holds for (or fails for)
every choice of hash function. -/

structure CacheEntry where
  data : List Nat
  timestamp : Nat
deriving Repr, DecidableEq

structure AudioCache where
  cache : List (String × CacheEntry)
  maxSize : Nat
  diskCacheEnabled : Bool
  disk : List (String × List Nat)
  clock : Nat
deriving Repr, DecidableEq

/-- The pre-hash input of AudioCache::GenerateCacheKey (src/audio_cache.cpp
line 93): `text + "|" + server + "|" + voice`. -/
def combinedKeyInput (text server voice : List Char) : List Char :=
  text ++ ('|' :: (server ++ ('|' :: voice)))

/-- AudioCache::GenerateCacheKey (src/audio_cache.cpp lines 91-167): the
hex-encoded SHA-256 of the combined input; the hash function is a
parameter. -/
def GenerateCacheKey (hash : List Char → String) (text server voice : List Char) : String :=
  hash (combinedKeyInput text server voice)

/-- The linear scan for the entry with the oldest timestamp
(src/audio_cache.cpp lines 265-271 and 294-300): `oldest` starts at the
first entry and each later entry with a strictly smaller timestamp replaces
it. -/
def oldestScan (best : String × CacheEntry) : List (String × CacheEntry) → String × CacheEntry
  | [] => best
  | e :: rest => oldestScan (if e.2.timestamp < best.2.timestamp then e else best) rest

/-- The eviction block shared by Put and the disk-promotion path of Get
(src/audio_cache.cpp lines 264-273 and 293-302): when
`cache.size() >= maxSize`, erase the entry found by the linear scan. -/
def evictIfFull (s : AudioCache) : AudioCache :=
  if s.maxSize ≤ s.cache.length then
    match s.cache with
    | [] => s
    | e₀ :: rest => { s with cache := mapErase s.cache (oldestScan e₀ rest).1 }
  else s

/-- The body of AudioCache::Put after the cache key is computed
(src/audio_cache.cpp lines 291-310): evict if at capacity, insert the new
entry stamped with the current time, then best-effort write the disk tier
(modeled as succeeding whenever the disk tier is enabled). -/
def putWithKey (s : AudioCache) (cacheKey : String) (data : List Nat) : AudioCache :=
  let s₁ := evictIfFull s
  let s₂ := { s₁ with
    cache := mapInsert s₁.cache cacheKey { data := data, timestamp := s₁.clock },
    clock := s₁.clock + 1 }
  if s₂.diskCacheEnabled then { s₂ with disk := mapInsert s₂.disk cacheKey data } else s₂

/-- The body of AudioCache::Get after the cache key is computed
(src/audio_cache.cpp lines 247-285): memory tier first (a hit refreshes
the timestamp in place), then the disk tier, promoting a disk hit into the
memory tier behind the same eviction block. -/
def getWithKey (s : AudioCache) (cacheKey : String) : Option (List Nat) × AudioCache :=
  match mapFind s.cache cacheKey with
  | some entry =>
      (some entry.data,
        { s with cache := mapInsert s.cache cacheKey { entry with timestamp := s.clock },
                 clock := s.clock + 1 })
  | none =>
      match (if s.diskCacheEnabled then mapFind s.disk cacheKey else none) with
      | some data =>
          let s₁ := evictIfFull s
          (some data,
            { s₁ with
              cache := mapInsert s₁.cache cacheKey { data := data, timestamp := s₁.clock },
              clock := s₁.clock + 1 })
      | none => (none, s)

/-- AudioCache::Put (src/audio_cache.cpp lines 288-311). -/
def AudioCache.Put (hash : List Char → String) (s : AudioCache)
    (text server voice : List Char) (data : List Nat) : AudioCache :=
  putWithKey s (GenerateCacheKey hash text server voice) data

/-- AudioCache::Get (src/audio_cache.cpp lines 244-286). -/
def AudioCache.Get (hash : List Char → String) (s : AudioCache)
    (text server voice : List Char) : Option (List Nat) × AudioCache :=
  getWithKey s (GenerateCacheKey hash text server voice)

theorem putWithKey_cache (s : AudioCache) (k : String) (data : List Nat) :
    (putWithKey s k data).cache
      = mapInsert (evictIfFull s).cache k { data := data, timestamp := (evictIfFull s).clock } := by
  cases h : (evictIfFull s).diskCacheEnabled <;> simp [putWithKey, h]

/-- C2: `Put(text, endpoint, voice, bytes)` immediately followed by `Get`
with the identical triple reports a hit (the result is `some …`) and
returns `bytes` unchanged, for every starting cache state and every hash
function. -/
theorem cache_put_then_get_roundtrip (hash : List Char → String) (s : AudioCache)
    (text server voice : List Char) (bytes : List Nat) :
    (AudioCache.Get hash (AudioCache.Put hash s text server voice bytes) text server voice).1
      = some bytes := by
  unfold AudioCache.Get AudioCache.Put getWithKey
  rw [putWithKey_cache, mapFind_insert_self]

theorem oldestScan_mem (l : List (String × CacheEntry)) :
    ∀ best, oldestScan best l = best ∨ oldestScan best l ∈ l := by
  induction l with
  | nil => intro best; left; rfl
  | cons e rest ih =>
      intro best
      have hstep : oldestScan best (e :: rest)
          = oldestScan (if e.2.timestamp < best.2.timestamp then e else best) rest := rfl
      rcases ih (if e.2.timestamp < best.2.timestamp then e else best) with h | h
      · rw [hstep, h]
        by_cases hc : e.2.timestamp < best.2.timestamp
        · rw [if_pos hc]; right; exact List.mem_cons_self _ _
        · rw [if_neg hc]; left; rfl
      · right
        rw [hstep]
        exact List.mem_cons_of_mem _ h

theorem oldestScan_min (l : List (String × CacheEntry)) :
    ∀ best, (oldestScan best l).2.timestamp ≤ best.2.timestamp
      ∧ ∀ e ∈ l, (oldestScan best l).2.timestamp ≤ e.2.timestamp := by
  induction l with
  | nil =>
      intro best
      exact ⟨Nat.le_refl _, by intro e he; simp at he⟩
  | cons e rest ih =>
      intro best
      obtain ⟨h₁, h₂⟩ := ih (if e.2.timestamp < best.2.timestamp then e else best)
      have hstep : oldestScan best (e :: rest)
          = oldestScan (if e.2.timestamp < best.2.timestamp then e else best) rest := rfl
      have hbest : (if e.2.timestamp < best.2.timestamp then e else best).2.timestamp
          ≤ best.2.timestamp := by
        by_cases hc : e.2.timestamp < best.2.timestamp
        · rw [if_pos hc]; omega
        · rw [if_neg hc]
      have hfirst : (if e.2.timestamp < best.2.timestamp then e else best).2.timestamp
          ≤ e.2.timestamp := by
        by_cases hc : e.2.timestamp < best.2.timestamp
        · rw [if_pos hc]
        · rw [if_neg hc]; omega
      refine ⟨?_, ?_⟩
      · rw [hstep]; omega
      · intro x hx
        rcases List.mem_cons.mp hx with hx | hx
        · subst hx; rw [hstep]; omega
        · rw [hstep]; exact h₂ x hx

theorem mapFind_of_mem_nodup {κ α : Type} [DecidableEq κ] (m : List (κ × α))
    (hnodup : (m.map Prod.fst).Nodup) (k : κ) (v : α) (hmem : (k, v) ∈ m) :
    mapFind m k = some v := by
  induction m with
  | nil => simp at hmem
  | cons e rest ih =>
      obtain ⟨k₀, v₀⟩ := e
      simp only [List.map_cons, List.nodup_cons] at hnodup
      rcases List.mem_cons.mp hmem with h | h
      · rw [Prod.mk.injEq] at h
        obtain ⟨hk, hv⟩ := h
        subst hk
        subst hv
        simp [mapFind]
      · have hk : ¬ k₀ = k := by
          intro he
          subst he
          exact hnodup.1 (List.mem_map_of_mem Prod.fst h)
        simp only [mapFind, hk, if_false]
        exact ih hnodup.2 h

theorem mapErase_length_of_mem {κ α : Type} [DecidableEq κ] (m : List (κ × α)) (k : κ) (v : α)
    (hnodup : (m.map Prod.fst).Nodup) (hmem : (k, v) ∈ m) :
    (mapErase m k).length + 1 = m.length := by
  induction m with
  | nil => simp at hmem
  | cons e rest ih =>
      obtain ⟨k₀, v₀⟩ := e
      simp only [List.map_cons, List.nodup_cons] at hnodup
      rcases List.mem_cons.mp hmem with h | h
      · rw [Prod.mk.injEq] at h
        obtain ⟨hk, _⟩ := h
        subst hk
        have hrest : ∀ x ∈ rest, x.1 ≠ k := by
          intro x hx he
          exact hnodup.1 (he ▸ List.mem_map_of_mem Prod.fst hx)
        simp [mapErase, List.filter_cons, mapErase_of_not_mem rest k hrest]
        exact fun a b hab => hrest (a, b) hab
      · have hk : k₀ ≠ k := by
          intro he
          subst he
          exact hnodup.1 (List.mem_map_of_mem Prod.fst h)
        have := ih hnodup.2 h
        simp [mapErase, List.filter_cons, hk] at this ⊢
        omega

theorem mapInsert_length_le {κ α : Type} [DecidableEq κ] (m : List (κ × α)) (k : κ) (v : α) :
    (mapInsert m k v).length ≤ m.length + 1 := by
  induction m with
  | nil => simp [mapInsert]
  | cons e rest ih =>
      obtain ⟨k₀, v₀⟩ := e
      by_cases h : k₀ = k
      · simp [mapInsert, h]
      · simp [mapInsert, h]
        omega

theorem mapInsert_length_of_find {κ α : Type} [DecidableEq κ] (m : List (κ × α)) (k : κ)
    (v w : α) (h : mapFind m k = some w) : (mapInsert m k v).length = m.length := by
  induction m with
  | nil => simp [mapFind] at h
  | cons e rest ih =>
      obtain ⟨k₀, v₀⟩ := e
      by_cases h₀ : k₀ = k
      · simp [mapInsert, h₀]
      · simp only [mapFind, h₀, if_false] at h
        simp [mapInsert, h₀, ih h]

theorem evictIfFull_of_lt (s : AudioCache) (h : s.cache.length < s.maxSize) :
    evictIfFull s = s := by
  unfold evictIfFull
  rw [if_neg (by omega)]

theorem evictIfFull_clock (s : AudioCache) : (evictIfFull s).clock = s.clock := by
  unfold evictIfFull
  split
  · split <;> rfl
  · rfl

theorem evictIfFull_maxSize (s : AudioCache) : (evictIfFull s).maxSize = s.maxSize := by
  unfold evictIfFull
  split
  · split <;> rfl
  · rfl

/-- Reachable-state invariant of the memory tier: keys are pairwise
distinct (`mapInsert` from the empty map never duplicates a key). -/
def cacheKeysNodup (s : AudioCache) : Prop := (s.cache.map Prod.fst).Nodup

/-- Reachable-state invariant under the logical clock: entries carry
pairwise distinct last-access timestamps, so "the entry with the oldest
last-access timestamp" is well defined. -/
def distinctTimestamps (s : AudioCache) : Prop :=
  s.cache.Pairwise (fun e₁ e₂ => e₁.2.timestamp ≠ e₂.2.timestamp)

theorem evictIfFull_full_spec (s : AudioCache)
    (hnodup : cacheKeysNodup s) (hts : distinctTimestamps s)
    (hfull : s.maxSize ≤ s.cache.length) (hpos : 1 ≤ s.maxSize) :
    ∃ ko eo, mapFind s.cache ko = some eo
      ∧ (∀ e ∈ s.cache, e.1 ≠ ko → eo.timestamp < e.2.timestamp)
      ∧ (evictIfFull s).cache = mapErase s.cache ko
      ∧ (evictIfFull s).cache.length + 1 = s.cache.length := by
  have hnil : s.cache ≠ [] := by
    intro h
    rw [h] at hfull
    simp at hfull
    omega
  obtain ⟨e₀, rest, hc⟩ : ∃ e₀ rest, s.cache = e₀ :: rest := by
    cases hcc : s.cache with
    | nil => exact absurd hcc hnil
    | cons a l => exact ⟨a, l, rfl⟩
  have homem : oldestScan e₀ rest ∈ s.cache := by
    rw [hc]
    rcases oldestScan_mem rest e₀ with h | h
    · rw [h]; exact List.mem_cons_self _ _
    · exact List.mem_cons_of_mem _ h
  have hcache : (evictIfFull s).cache = mapErase s.cache (oldestScan e₀ rest).1 := by
    unfold evictIfFull
    rw [if_pos hfull]
    simp only [hc]
  refine ⟨(oldestScan e₀ rest).1, (oldestScan e₀ rest).2, ?_, ?_, hcache, ?_⟩
  · exact mapFind_of_mem_nodup s.cache hnodup _ _ homem
  · intro e he hne
    have hle : (oldestScan e₀ rest).2.timestamp ≤ e.2.timestamp := by
      obtain ⟨h₁, h₂⟩ := oldestScan_min rest e₀
      rw [hc] at he
      rcases List.mem_cons.mp he with he₀ | he₀
      · rw [he₀]; exact h₁
      · exact h₂ e he₀
    have hnee : oldestScan e₀ rest ≠ e := by
      intro hoe
      exact hne (by rw [← hoe])
    have hsym : Symmetric (fun e₁ e₂ : String × CacheEntry =>
        e₁.2.timestamp ≠ e₂.2.timestamp) := fun a b h => Ne.symm h
    have hneq := List.Pairwise.forall hsym hts homem he hnee
    omega
  · have herase := mapErase_length_of_mem s.cache _ _ hnodup homem
    rw [hcache]
    exact herase

theorem getWithKey_memhit (s : AudioCache) (k : String) (e : CacheEntry)
    (h : mapFind s.cache k = some e) :
    (getWithKey s k).2
      = { s with cache := mapInsert s.cache k { e with timestamp := s.clock },
                 clock := s.clock + 1 } := by
  unfold getWithKey
  rw [h]

theorem getWithKey_nohit (s : AudioCache) (k : String)
    (hmiss : mapFind s.cache k = none)
    (hdisk : (if s.diskCacheEnabled = true then mapFind s.disk k else none) = none) :
    (getWithKey s k).2 = s := by
  unfold getWithKey
  rw [hmiss, hdisk]

theorem getWithKey_diskhit (s : AudioCache) (k : String) (d : List Nat)
    (hmiss : mapFind s.cache k = none) (hdisk : s.diskCacheEnabled = true)
    (hfound : mapFind s.disk k = some d) :
    (getWithKey s k).2.cache
      = mapInsert (evictIfFull s).cache k { data := d, timestamp := (evictIfFull s).clock } := by
  unfold getWithKey
  rw [hmiss, hdisk]
  simp only [if_true]
  rw [hfound]

/-- LRU behavior of one insertion with key `k` into the memory tier of `s`:
some present key `ko` holds the strictly oldest entry; after the insertion
that entry is gone (unless `ko` is the inserted key itself), and every key
other than `ko` and `k` is untouched. -/
def evictsExactlyOldest (s : AudioCache) (newCache : List (String × CacheEntry))
    (k : String) : Prop :=
  ∃ ko eo, mapFind s.cache ko = some eo
    ∧ (∀ e ∈ s.cache, e.1 ≠ ko → eo.timestamp < e.2.timestamp)
    ∧ (ko ≠ k → mapFind newCache ko = none)
    ∧ (∀ k₁, k₁ ≠ ko → k₁ ≠ k → mapFind newCache k₁ = mapFind s.cache k₁)

/-- The LRU contract of the memory tier for one `Put` and one `Get` with
key `k`: the entry count stays within `maxSize`; an insertion while the
tier is below capacity evicts nothing; an insertion while the tier holds
`maxSize` entries (a `Put` — even one overwriting a present key — or a
disk-hit promotion inside `Get`) evicts exactly the entry with the oldest
last-access timestamp; a memory-hit `Get` evicts nothing. -/
def lruSpec (s : AudioCache) (k : String) (data : List Nat) : Prop :=
  ((putWithKey s k data).cache.length ≤ s.maxSize)
  ∧ ((getWithKey s k).2.cache.length ≤ s.maxSize)
  ∧ (s.cache.length < s.maxSize →
      ∀ k₁, k₁ ≠ k → mapFind (putWithKey s k data).cache k₁ = mapFind s.cache k₁)
  ∧ (s.maxSize ≤ s.cache.length → evictsExactlyOldest s (putWithKey s k data).cache k)
  ∧ (mapFind s.cache k = none → s.diskCacheEnabled = true →
      ∀ d, mapFind s.disk k = some d →
        (s.cache.length < s.maxSize →
          ∀ k₁, k₁ ≠ k → mapFind (getWithKey s k).2.cache k₁ = mapFind s.cache k₁)
        ∧ (s.maxSize ≤ s.cache.length → evictsExactlyOldest s (getWithKey s k).2.cache k))
  ∧ (∀ e, mapFind s.cache k = some e →
      ∀ k₁, k₁ ≠ k → mapFind (getWithKey s k).2.cache k₁ = mapFind s.cache k₁)

theorem insert_after_evict_spec (s : AudioCache) (k : String) (entry : CacheEntry)
    (hnodup : cacheKeysNodup s) (hts : distinctTimestamps s)
    (hfull : s.maxSize ≤ s.cache.length) (hpos : 1 ≤ s.maxSize) :
    evictsExactlyOldest s (mapInsert (evictIfFull s).cache k entry) k
    ∧ (mapInsert (evictIfFull s).cache k entry).length ≤ s.cache.length := by
  obtain ⟨ko, eo, hfind, hmin, hcache, hlen⟩ := evictIfFull_full_spec s hnodup hts hfull hpos
  constructor
  · refine ⟨ko, eo, hfind, hmin, ?_, ?_⟩
    · intro hne
      rw [mapFind_insert_ne _ _ _ _ hne, hcache]
      exact mapFind_erase_self _ _
    · intro k₁ hne₁ hne₂
      rw [mapFind_insert_ne _ _ _ _ hne₂, hcache]
      exact mapFind_erase_ne _ _ _ hne₁
  · have := mapInsert_length_le (evictIfFull s).cache k entry
    omega

/-- C4 (amended): the memory tier never exceeds the configured maximum
(preserved by every `Put`/`Get` from a state within the bound); an insertion
while the tier is below capacity evicts nothing; a `Put` while the tier
already holds `maxSize` entries evicts exactly the entry with the oldest
last-access timestamp, **even when the written key is already present** (the
code checks `size() >= maxSize` before, not after, the overwrite — the
point corrected by the counterexample); a disk-hit promotion inside `Get`
at capacity does the same; a memory-hit `Get` evicts nothing. -/
theorem lru_eviction_behavior (s : AudioCache) (k : String) (data : List Nat)
    (hnodup : cacheKeysNodup s) (hts : distinctTimestamps s)
    (hmax : 1 ≤ s.maxSize) (hlen : s.cache.length ≤ s.maxSize) :
    lruSpec s k data := by
  refine ⟨?_, ?_, ?_, ?_, ?_, ?_⟩
  · -- Put keeps the bound
    rw [putWithKey_cache]
    by_cases hfull : s.maxSize ≤ s.cache.length
    · exact Nat.le_trans (insert_after_evict_spec s k _ hnodup hts hfull hmax).2 hlen
    · rw [evictIfFull_of_lt s (by omega)]
      have := mapInsert_length_le s.cache k
        { data := data, timestamp := s.clock }
      omega
  · -- Get keeps the bound
    cases hk : mapFind s.cache k with
    | some e =>
        rw [getWithKey_memhit s k e hk]
        simp only []
        rw [mapInsert_length_of_find s.cache k _ e hk]
        exact hlen
    | none =>
        cases hdisk : (if s.diskCacheEnabled = true then mapFind s.disk k else none) with
        | none => rw [getWithKey_nohit s k hk hdisk]; exact hlen
        | some d =>
            have hden : s.diskCacheEnabled = true := by
              by_cases h : s.diskCacheEnabled = true
              · exact h
              · rw [if_neg h] at hdisk; simp at hdisk
            have hfound : mapFind s.disk k = some d := by
              rw [if_pos hden] at hdisk; exact hdisk
            rw [getWithKey_diskhit s k d hk hden hfound]
            by_cases hfull : s.maxSize ≤ s.cache.length
            · exact Nat.le_trans (insert_after_evict_spec s k _ hnodup hts hfull hmax).2 hlen
            · rw [evictIfFull_of_lt s (by omega)]
              have := mapInsert_length_le s.cache k
                { data := d, timestamp := s.clock }
              omega
  · -- Put below capacity evicts nothing
    intro hlt k₁ hne
    rw [putWithKey_cache, evictIfFull_of_lt s hlt]
    exact mapFind_insert_ne _ _ _ _ hne
  · -- Put at capacity evicts exactly the oldest entry
    intro hfull
    rw [putWithKey_cache]
    exact (insert_after_evict_spec s k _ hnodup hts hfull hmax).1
  · -- Get promoting a disk hit
    intro hmiss hden d hfound
    constructor
    · intro hlt k₁ hne
      rw [getWithKey_diskhit s k d hmiss hden hfound, evictIfFull_of_lt s hlt]
      exact mapFind_insert_ne _ _ _ _ hne
    · intro hfull
      rw [getWithKey_diskhit s k d hmiss hden hfound]
      exact (insert_after_evict_spec s k _ hnodup hts hfull hmax).1
  · -- Get hitting the memory tier evicts nothing
    intro e hk k₁ hne
    rw [getWithKey_memhit s k e hk]
    simp only []
    exact mapFind_insert_ne _ _ _ _ hne

/-- Concrete cache entries for the C4 counterexample and witness. -/
def entryA : CacheEntry := { data := [1], timestamp := 0 }

def entryB : CacheEntry := { data := [2], timestamp := 1 }

/-- A memory tier at its capacity of 2 holding keys "a" (older) and "b". -/
def fullCache : AudioCache :=
  { cache := [("a", entryA), ("b", entryB)], maxSize := 2, diskCacheEnabled := false,
    disk := [], clock := 2 }

/-- C4 counterexample: overwriting the already-present key "b" while the
tier is at capacity does not grow the tier — by the claim such an insertion
evicts nothing — yet the code evicts the oldest entry "a": after
`Put("b", …)` on a full tier containing "a" and "b", key "a" is gone from
the memory tier. -/
theorem put_existing_key_at_capacity_still_evicts :
    mapFind fullCache.cache "b" = some entryB
    ∧ fullCache.cache.length = 2
    ∧ fullCache.maxSize = 2
    ∧ mapFind fullCache.cache "a" = some entryA
    ∧ mapFind (putWithKey fullCache "b" [3]).cache "a" = none := by
  refine ⟨rfl, rfl, rfl, rfl, rfl⟩

/-- C4 witness: the amended LRU contract instantiated at the concrete full
cache and a fresh key. -/
theorem lru_eviction_behavior_witness : lruSpec fullCache "c" [9] :=
  lru_eviction_behavior fullCache "c" [9]
    (show (fullCache.cache.map Prod.fst).Nodup by decide)
    (show fullCache.cache.Pairwise (fun e₁ e₂ => e₁.2.timestamp ≠ e₂.2.timestamp) by decide)
    (by decide) (by decide)

/-! ### Fetch thread pool — src/fetch_thread_pool.cpp

Only the task queue and its bound matter for the claims; the lazy worker
startup (lines 94-109) touches neither.  Tasks are opaque `std::function`
closures, embedded as identifiers. -/

structure FetchThreadPool where
  tasks : List Nat
  maxPendingTasks : Nat
deriving Repr, DecidableEq

/-- The globally constructed pool (src/fetch_thread_pool.h line 51,
src/fetch_thread_pool.cpp line 29): default bound of 20 pending tasks. -/
def FetchThreadPool.mk0 : FetchThreadPool := { tasks := [], maxPendingTasks := 20 }

/-- FetchThreadPool::Enqueue (src/fetch_thread_pool.cpp lines 92-124): a
queue already holding `maxPendingTasks` tasks rejects and drops the task
(returns false, state unchanged); otherwise the task is appended and true
is returned. -/
def FetchThreadPool.Enqueue (p : FetchThreadPool) (task : Nat) : Bool × FetchThreadPool :=
  if p.maxPendingTasks ≤ p.tasks.length then (false, p)
  else (true, { p with tasks := p.tasks ++ [task] })

/-- The dequeue step of FetchThreadPool::WorkerLoop
(src/fetch_thread_pool.cpp lines 70-73): a worker takes the front task. -/
def FetchThreadPool.TakeTask (p : FetchThreadPool) : Option Nat × FetchThreadPool :=
  match p.tasks with
  | [] => (none, p)
  | t :: rest => (some t, { p with tasks := rest })

/-- C3: `Enqueue` returns false and drops the task exactly when the queue
already holds the configured maximum (default 20); otherwise it appends the
task and returns true; the queue length never exceeds the bound; and after
one task is dequeued from a full queue the next `Enqueue` succeeds. -/
theorem enqueue_backpressure (p : FetchThreadPool) (task task' : Nat)
    (hlen : p.tasks.length ≤ p.maxPendingTasks) (hmax : 1 ≤ p.maxPendingTasks) :
    (p.tasks.length = p.maxPendingTasks → p.Enqueue task = (false, p))
    ∧ (p.tasks.length < p.maxPendingTasks →
        p.Enqueue task = (true, { p with tasks := p.tasks ++ [task] }))
    ∧ ((p.Enqueue task).2.tasks.length ≤ p.maxPendingTasks)
    ∧ (p.tasks.length = p.maxPendingTasks → (p.TakeTask.2.Enqueue task').1 = true)
    ∧ FetchThreadPool.mk0.maxPendingTasks = 20 := by
  refine ⟨?_, ?_, ?_, ?_, rfl⟩
  · intro hfull
    unfold FetchThreadPool.Enqueue
    rw [if_pos (by omega)]
  · intro hlt
    unfold FetchThreadPool.Enqueue
    rw [if_neg (by omega)]
  · unfold FetchThreadPool.Enqueue
    by_cases hfull : p.maxPendingTasks ≤ p.tasks.length
    · rw [if_pos hfull]
      exact hlen
    · rw [if_neg hfull]
      simp
      omega
  · intro hfull
    have hne : p.tasks ≠ [] := by
      intro h
      rw [h] at hfull
      simp at hfull
      omega
    obtain ⟨t, rest, hc⟩ : ∃ t rest, p.tasks = t :: rest := by
      cases hcc : p.tasks with
      | nil => exact absurd hcc hne
      | cons a l => exact ⟨a, l, rfl⟩
    unfold FetchThreadPool.TakeTask FetchThreadPool.Enqueue
    simp only [hc]
    rw [if_neg (by
      have hc' : p.tasks.length = rest.length + 1 := by rw [hc]; rfl
      omega)]

/-- A pool at its capacity of 2, for the C3 witness. -/
def fullPool : FetchThreadPool := { tasks := [1, 2], maxPendingTasks := 2 }

/-- C3 witness: the backpressure contract instantiated at a full two-task
pool. -/
theorem enqueue_backpressure_witness :
    (fullPool.tasks.length = fullPool.maxPendingTasks → fullPool.Enqueue 7 = (false, fullPool))
    ∧ (fullPool.tasks.length < fullPool.maxPendingTasks →
        fullPool.Enqueue 7 = (true, { fullPool with tasks := fullPool.tasks ++ [7] }))
    ∧ ((fullPool.Enqueue 7).2.tasks.length ≤ fullPool.maxPendingTasks)
    ∧ (fullPool.tasks.length = fullPool.maxPendingTasks →
        (fullPool.TakeTask.2.Enqueue 8).1 = true)
    ∧ FetchThreadPool.mk0.maxPendingTasks = 20 :=
  enqueue_backpressure fullPool 7 8 (by decide) (by decide)

/-! ### Retry/backoff fetcher — src/tts_fetcher.cpp -/

/-- The observable outcome of one fetch attempt: a transport-level failure
(any `continue` path before a status code is read: WinINet init, URL parse,
connect, request creation, send — lines 53-111) or an HTTP response with
its status code and payload. -/
inductive AttemptResult where
  | transportFail
  | httpStatus (code : Nat) (payload : List Nat)
deriving Repr, DecidableEq

/-- What one run of FetchTTSAudioWithRetry observably does: the returned
body, the number of attempts executed, and the backoff delays slept (ms),
in order. -/
structure FetchRun where
  result : List Nat
  attemptsMade : Nat
  delays : List Nat
deriving Repr, DecidableEq

/-- The attempt loop of FetchTTSAudioWithRetry (src/tts_fetcher.cpp lines
43-154), parameterized by each attempt's outcome; `remaining` counts the
loop iterations left (`maxRetries - attempt`, so `remaining = 0` is the
loop exit returning `{}`, line 157).  Backoff before attempt `attempt > 0`
is `500 * (1 << attempt)` ms in 32-bit DWORD arithmetic (line 47); a 200
response returns its payload (line 153); a non-200 status in [400, 500)
breaks out of the loop (lines 128-130); every other outcome falls through
to the next attempt. -/
def fetchLoopAux (outcome : Nat → AttemptResult) (attempt : Nat) : Nat → FetchRun
  | 0 => { result := [], attemptsMade := 0, delays := [] }
  | remaining + 1 =>
    let ds : List Nat := if 0 < attempt then [(500 * 2 ^ attempt) % 2 ^ 32] else []
    match outcome attempt with
    | .transportFail =>
        let r := fetchLoopAux outcome (attempt + 1) remaining
        { result := r.result, attemptsMade := r.attemptsMade + 1, delays := ds ++ r.delays }
    | .httpStatus code payload =>
        if code = 200 then { result := payload, attemptsMade := 1, delays := ds }
        else if 400 ≤ code ∧ code < 500 then
          { result := [], attemptsMade := 1, delays := ds }
        else
          let r := fetchLoopAux outcome (attempt + 1) remaining
          { result := r.result, attemptsMade := r.attemptsMade + 1, delays := ds ++ r.delays }

/-- FetchTTSAudioWithRetry (src/tts_fetcher.cpp lines 31-158). -/
def FetchTTSAudioWithRetry (outcome : Nat → AttemptResult) (maxRetries : Nat) : FetchRun :=
  fetchLoopAux outcome 0 maxRetries

/-- FetchTTSAudio (src/tts_fetcher.cpp lines 160-162): default budget 3. -/
def FetchTTSAudio (outcome : Nat → AttemptResult) : FetchRun :=
  FetchTTSAudioWithRetry outcome 3

/-- The only way an attempt succeeds: a 200 response
(src/tts_fetcher.cpp line 118 checks `statusCode != 200`). -/
def isSuccess : AttemptResult → Bool
  | .transportFail => false
  | .httpStatus code _ => if code = 200 then true else false

/-- An attempt outcome the loop falls through on: a transport failure, or a
status that is neither 200 nor in the 4xx range (e.g. a 5xx server
error). -/
def isRetryFailure : AttemptResult → Bool
  | .transportFail => true
  | .httpStatus code _ =>
      if code = 200 then false else if 400 ≤ code ∧ code < 500 then false else true

theorem isSuccess_false_of_retryFailure (r : AttemptResult)
    (h : isRetryFailure r = true) : isSuccess r = false := by
  cases r with
  | transportFail => rfl
  | httpStatus code payload =>
      by_cases h200 : code = 200
      · subst h200
        simp [isRetryFailure] at h
      · simp [isSuccess, h200]

/-- How the delay slept before one attempt extends the delay list of the
remaining attempts. -/
theorem delays_cons (attempt n : Nat) (tail : List Nat)
    (htail : tail = (List.range' (attempt + 1) n).filterMap
        (fun j => if j = 0 then none else some ((500 * 2 ^ j) % 2 ^ 32))) :
    (if 0 < attempt then [(500 * 2 ^ attempt) % 2 ^ 32] else []) ++ tail
      = (List.range' attempt (n + 1)).filterMap
          (fun j => if j = 0 then none else some ((500 * 2 ^ j) % 2 ^ 32)) := by
  rw [List.range'_succ, List.filterMap_cons, htail]
  by_cases ha : 0 < attempt
  · rw [if_pos ha,
      show (if attempt = 0 then none else some ((500 * 2 ^ attempt) % 2 ^ 32))
        = some ((500 * 2 ^ attempt) % 2 ^ 32) from by rw [if_neg (by omega)]]
    rfl
  · rw [if_neg ha,
      show (if attempt = 0 then (none : Option Nat)
          else some ((500 * 2 ^ attempt) % 2 ^ 32)) = none from by rw [if_pos (by omega)]]
    rfl

theorem fetchLoopAux_spec (outcome : Nat → AttemptResult) :
    ∀ (remaining attempt : Nat),
      (fetchLoopAux outcome attempt remaining).attemptsMade ≤ remaining
      ∧ (fetchLoopAux outcome attempt remaining).delays
          = (List.range' attempt (fetchLoopAux outcome attempt remaining).attemptsMade).filterMap
              (fun j => if j = 0 then none else some ((500 * 2 ^ j) % 2 ^ 32))
      ∧ ((∀ j, attempt ≤ j → j < attempt + remaining → isSuccess (outcome j) = false) →
          (fetchLoopAux outcome attempt remaining).result = []) := by
  intro remaining
  induction remaining with
  | zero =>
      intro attempt
      exact ⟨by simp [fetchLoopAux], by simp [fetchLoopAux], fun _ => rfl⟩
  | succ rem ih =>
      intro attempt
      obtain ⟨iha, ihd, ihr⟩ := ih (attempt + 1)
      have hsingle : (if 0 < attempt then [(500 * 2 ^ attempt) % 2 ^ 32] else [])
          = (List.range' attempt 1).filterMap
              (fun j => if j = 0 then none else some ((500 * 2 ^ j) % 2 ^ 32)) := by
        have h := delays_cons attempt 0 [] (by simp)
        simpa using h
      cases hout : outcome attempt with
      | transportFail =>
          have hred : fetchLoopAux outcome attempt (rem + 1)
              = { result := (fetchLoopAux outcome (attempt + 1) rem).result,
                  attemptsMade := (fetchLoopAux outcome (attempt + 1) rem).attemptsMade + 1,
                  delays := (if 0 < attempt then [(500 * 2 ^ attempt) % 2 ^ 32] else [])
                    ++ (fetchLoopAux outcome (attempt + 1) rem).delays } := by
            simp [fetchLoopAux, hout]
          rw [hred]
          refine ⟨by show _ + 1 ≤ rem + 1; omega, ?_, ?_⟩
          · exact delays_cons attempt _ _ ihd
          · intro hall
            exact ihr (fun j h₁ h₂ => hall j (by omega) (by omega))
      | httpStatus code payload =>
          by_cases h200 : code = 200
          · have hred : fetchLoopAux outcome attempt (rem + 1)
                = { result := payload, attemptsMade := 1,
                    delays := if 0 < attempt then [(500 * 2 ^ attempt) % 2 ^ 32] else [] } := by
              simp [fetchLoopAux, hout, h200]
            rw [hred]
            refine ⟨by show 1 ≤ rem + 1; omega, hsingle, ?_⟩
            intro hall
            have hs := hall attempt (by omega) (by omega)
            rw [hout] at hs
            simp [isSuccess, h200] at hs
          · by_cases h4 : 400 ≤ code ∧ code < 500
            · have hred : fetchLoopAux outcome attempt (rem + 1)
                  = { result := [], attemptsMade := 1,
                      delays := if 0 < attempt then [(500 * 2 ^ attempt) % 2 ^ 32] else [] } := by
                simp [fetchLoopAux, hout, h200, h4]
              rw [hred]
              exact ⟨by show 1 ≤ rem + 1; omega, hsingle, fun _ => rfl⟩
            · have hred : fetchLoopAux outcome attempt (rem + 1)
                  = { result := (fetchLoopAux outcome (attempt + 1) rem).result,
                      attemptsMade := (fetchLoopAux outcome (attempt + 1) rem).attemptsMade + 1,
                      delays := (if 0 < attempt then [(500 * 2 ^ attempt) % 2 ^ 32] else [])
                        ++ (fetchLoopAux outcome (attempt + 1) rem).delays } := by
                simp [fetchLoopAux, hout, h200, h4]
              rw [hred]
              refine ⟨by show _ + 1 ≤ rem + 1; omega, ?_, ?_⟩
              · exact delays_cons attempt _ _ ihd
              · intro hall
                exact ihr (fun j h₁ h₂ => hall j (by omega) (by omega))

theorem fetchLoopAux_clientError (outcome : Nat → AttemptResult) :
    ∀ (remaining attempt k c : Nat) (p : List Nat),
      attempt ≤ k → k < attempt + remaining →
      (∀ j, attempt ≤ j → j < k → isRetryFailure (outcome j) = true) →
      outcome k = .httpStatus c p → 400 ≤ c → c < 500 →
      (fetchLoopAux outcome attempt remaining).result = []
      ∧ (fetchLoopAux outcome attempt remaining).attemptsMade + attempt = k + 1 := by
  intro remaining
  induction remaining with
  | zero =>
      intro attempt k c p h₁ h₂ _ _ _ _
      omega
  | succ rem ih =>
      intro attempt k c p h₁ h₂ hbefore hresp hc₁ hc₂
      by_cases hak : attempt = k
      · have hout : outcome attempt = .httpStatus c p := by rw [hak]; exact hresp
        have hne200 : ¬ c = 200 := by omega
        have hred : fetchLoopAux outcome attempt (rem + 1)
            = { result := [], attemptsMade := 1,
                delays := if 0 < attempt then [(500 * 2 ^ attempt) % 2 ^ 32] else [] } := by
          simp only [fetchLoopAux, hout]
          rw [if_neg hne200, if_pos (⟨hc₁, hc₂⟩ : 400 ≤ c ∧ c < 500)]
        rw [hred]
        exact ⟨rfl, by show 1 + attempt = k + 1; omega⟩
      · have hlt : attempt < k := by omega
        have hrf := hbefore attempt (by omega) hlt
        cases hout : outcome attempt with
        | transportFail =>
            have hred : fetchLoopAux outcome attempt (rem + 1)
                = { result := (fetchLoopAux outcome (attempt + 1) rem).result,
                    attemptsMade := (fetchLoopAux outcome (attempt + 1) rem).attemptsMade + 1,
                    delays := (if 0 < attempt then [(500 * 2 ^ attempt) % 2 ^ 32] else [])
                      ++ (fetchLoopAux outcome (attempt + 1) rem).delays } := by
              simp [fetchLoopAux, hout]
            rw [hred]
            obtain ⟨hres, hatt⟩ := ih (attempt + 1) k c p (by omega) (by omega)
              (fun j ha hb => hbefore j (by omega) hb) hresp hc₁ hc₂
            exact ⟨hres, by show _ + 1 + attempt = k + 1; omega⟩
        | httpStatus code payload =>
            rw [hout] at hrf
            simp only [isRetryFailure] at hrf
            by_cases h200 : code = 200
            · rw [if_pos h200] at hrf
              simp at hrf
            · rw [if_neg h200] at hrf
              by_cases h4 : 400 ≤ code ∧ code < 500
              · rw [if_pos h4] at hrf
                simp at hrf
              · have hred : fetchLoopAux outcome attempt (rem + 1)
                    = { result := (fetchLoopAux outcome (attempt + 1) rem).result,
                        attemptsMade := (fetchLoopAux outcome (attempt + 1) rem).attemptsMade + 1,
                        delays := (if 0 < attempt then [(500 * 2 ^ attempt) % 2 ^ 32] else [])
                          ++ (fetchLoopAux outcome (attempt + 1) rem).delays } := by
                  simp [fetchLoopAux, hout, h200, h4]
                rw [hred]
                obtain ⟨hres, hatt⟩ := ih (attempt + 1) k c p (by omega) (by omega)
                  (fun j ha hb => hbefore j (by omega) hb) hresp hc₁ hc₂
                exact ⟨hres, by show _ + 1 + attempt = k + 1; omega⟩

theorem fetchLoopAux_exhausts (outcome : Nat → AttemptResult) :
    ∀ (remaining attempt : Nat),
      (∀ j, attempt ≤ j → j < attempt + remaining → isRetryFailure (outcome j) = true) →
      (fetchLoopAux outcome attempt remaining).attemptsMade = remaining := by
  intro remaining
  induction remaining with
  | zero => intro attempt _; rfl
  | succ rem ih =>
      intro attempt hall
      have hrf := hall attempt (by omega) (by omega)
      cases hout : outcome attempt with
      | transportFail =>
          have hred : fetchLoopAux outcome attempt (rem + 1)
              = { result := (fetchLoopAux outcome (attempt + 1) rem).result,
                  attemptsMade := (fetchLoopAux outcome (attempt + 1) rem).attemptsMade + 1,
                  delays := (if 0 < attempt then [(500 * 2 ^ attempt) % 2 ^ 32] else [])
                    ++ (fetchLoopAux outcome (attempt + 1) rem).delays } := by
            simp [fetchLoopAux, hout]
          rw [hred]
          show (fetchLoopAux outcome (attempt + 1) rem).attemptsMade + 1 = rem + 1
          rw [ih (attempt + 1) (fun j h₁ h₂ => hall j (by omega) (by omega))]
      | httpStatus code payload =>
          rw [hout] at hrf
          simp only [isRetryFailure] at hrf
          by_cases h200 : code = 200
          · rw [if_pos h200] at hrf
            simp at hrf
          · rw [if_neg h200] at hrf
            by_cases h4 : 400 ≤ code ∧ code < 500
            · rw [if_pos h4] at hrf
              simp at hrf
            · have hred : fetchLoopAux outcome attempt (rem + 1)
                  = { result := (fetchLoopAux outcome (attempt + 1) rem).result,
                      attemptsMade := (fetchLoopAux outcome (attempt + 1) rem).attemptsMade + 1,
                      delays := (if 0 < attempt then [(500 * 2 ^ attempt) % 2 ^ 32] else [])
                        ++ (fetchLoopAux outcome (attempt + 1) rem).delays } := by
                simp [fetchLoopAux, hout, h200, h4]
              rw [hred]
              show (fetchLoopAux outcome (attempt + 1) rem).attemptsMade + 1 = rem + 1
              rw [ih (attempt + 1) (fun j h₁ h₂ => hall j (by omega) (by omega))]

/-- C5 (amended): the loop makes at most `maxRetries` attempts (default 3);
the backoff delays slept are `500·2^k` ms exactly for the executed attempt
indices `k ≥ 1` — there is no sleep before attempt 0, so the default budget
of 3 sleeps 1000 ms and 2000 ms (not 500, 1000, 2000) — and when every
attempt fails the caller receives the empty result. -/
theorem fetch_retry_budget_and_backoff (outcome : Nat → AttemptResult) (maxRetries : Nat) :
    (FetchTTSAudioWithRetry outcome maxRetries).attemptsMade ≤ maxRetries
    ∧ (FetchTTSAudioWithRetry outcome maxRetries).delays
        = (List.range' 0 (FetchTTSAudioWithRetry outcome maxRetries).attemptsMade).filterMap
            (fun j => if j = 0 then none else some ((500 * 2 ^ j) % 2 ^ 32))
    ∧ ((∀ j, j < maxRetries → isSuccess (outcome j) = false) →
        (FetchTTSAudioWithRetry outcome maxRetries).result = [])
    ∧ (FetchTTSAudio (fun _ => .transportFail)).delays = [1000, 2000] := by
  obtain ⟨ha, hd, hr⟩ := fetchLoopAux_spec outcome maxRetries 0
  exact ⟨ha, hd, fun hall => hr (fun j h₀ hj => hall j (by omega)), by decide⟩

/-- C5 counterexample: with the default budget of 3 and every attempt
failing, the delays actually slept are 1000 ms and 2000 ms — the loop
skips the backoff before attempt 0 (the guard `attempt > 0` on line 44),
so the claimed delay sequence 500, 1000, 2000 never occurs. -/
theorem default_backoff_delays_not_half_second_first :
    (FetchTTSAudio (fun _ => .transportFail)).delays = [1000, 2000]
    ∧ (FetchTTSAudio (fun _ => .transportFail)).delays ≠ [500, 1000, 2000] := by
  exact ⟨by decide, by decide⟩

/-- C6: after any run of retryable failures, a client-error (4xx) response
on attempt `k` terminates the loop at once: empty result after exactly
`k + 1` attempts — on the first attempt that is exactly one attempt —
whereas when every attempt is a transport failure or a non-4xx error the
loop uses the whole budget and returns empty. -/
theorem client_error_stops_retries (outcome outcome₂ : Nat → AttemptResult)
    (maxRetries k c : Nat) (p : List Nat)
    (hk : k < maxRetries)
    (hbefore : ∀ j, j < k → isRetryFailure (outcome j) = true)
    (hresp : outcome k = .httpStatus c p) (hc₁ : 400 ≤ c) (hc₂ : c < 500) :
    ((FetchTTSAudioWithRetry outcome maxRetries).result = []
      ∧ (FetchTTSAudioWithRetry outcome maxRetries).attemptsMade = k + 1)
    ∧ ((∀ j, j < maxRetries → isRetryFailure (outcome₂ j) = true) →
        (FetchTTSAudioWithRetry outcome₂ maxRetries).attemptsMade = maxRetries
        ∧ (FetchTTSAudioWithRetry outcome₂ maxRetries).result = []) := by
  constructor
  · obtain ⟨h₁, h₂⟩ := fetchLoopAux_clientError outcome maxRetries 0 k c p (by omega)
      (by omega) (fun j h₀ hj => hbefore j hj) hresp hc₁ hc₂
    refine ⟨h₁, ?_⟩
    show (fetchLoopAux outcome 0 maxRetries).attemptsMade = k + 1
    omega
  · intro hall
    refine ⟨fetchLoopAux_exhausts outcome₂ maxRetries 0
      (fun j h₀ hj => hall j (by omega)), ?_⟩
    exact (fetchLoopAux_spec outcome₂ maxRetries 0).2.2
      (fun j h₀ hj => isSuccess_false_of_retryFailure _ (hall j (by omega)))

/-- C6 witness: a 404 on the very first attempt of the default budget gives
the empty result after exactly one attempt; all-transport-failure runs use
all 3 attempts. -/
theorem client_error_stops_retries_witness :
    ((FetchTTSAudioWithRetry (fun _ => .httpStatus 404 []) 3).result = []
      ∧ (FetchTTSAudioWithRetry (fun _ => .httpStatus 404 []) 3).attemptsMade = 1)
    ∧ ((∀ j, j < 3 → isRetryFailure ((fun _ => AttemptResult.transportFail) j) = true) →
        (FetchTTSAudioWithRetry (fun _ => .transportFail) 3).attemptsMade = 3
        ∧ (FetchTTSAudioWithRetry (fun _ => .transportFail) 3).result = []) :=
  client_error_stops_retries (fun _ => .httpStatus 404 []) (fun _ => .transportFail) 3 0 404 []
    (by omega) (by intro j hj; omega) rfl (by omega) (by omega)

/-! ### Fingerprint analysis — AudioCache::GenerateCacheKey (C8) -/

theorem append_sep_inj (l₁ : List Char) :
    ∀ (l₂ r₁ r₂ : List Char), '|' ∉ l₁ → '|' ∉ l₂ →
      l₁ ++ '|' :: r₁ = l₂ ++ '|' :: r₂ → l₁ = l₂ ∧ r₁ = r₂ := by
  induction l₁ with
  | nil =>
      intro l₂ r₁ r₂ _ h₂ h
      cases l₂ with
      | nil => simpa using h
      | cons b t =>
          simp at h
          obtain ⟨hb, _⟩ := h
          exact absurd (hb ▸ List.mem_cons_self b t) h₂
  | cons a t₁ ih =>
      intro l₂ r₁ r₂ h₁ h₂ h
      cases l₂ with
      | nil =>
          simp at h
          obtain ⟨ha, _⟩ := h
          exact absurd (ha ▸ List.mem_cons_self a t₁) h₁
      | cons b t₂ =>
          simp at h
          obtain ⟨hab, h'⟩ := h
          have ht₁ : '|' ∉ t₁ := fun hm => h₁ (List.mem_cons_of_mem a hm)
          have ht₂ : '|' ∉ t₂ := fun hm => h₂ (List.mem_cons_of_mem b hm)
          obtain ⟨he, hr⟩ := ih t₂ r₁ r₂ ht₁ ht₂ h'
          exact ⟨by rw [hab, he], hr⟩

/-- C8 counterexample: the distinct triples `("a|b", "c", "v")` and
`("a", "b|c", "v")` produce the identical pre-hash input `"a|b|c|v"`
(src/audio_cache.cpp line 93 joins the fields with "|"), hence the
identical cache key under the SHA-256 of the source — and under every hash
function; `String.mk` is shown as one concrete instance. -/
theorem distinct_triples_same_cache_key :
    (((['a', '|', 'b'], ['c']) : List Char × List Char) ≠ (['a'], ['b', '|', 'c']))
    ∧ combinedKeyInput ['a', '|', 'b'] ['c'] ['v']
        = combinedKeyInput ['a'] ['b', '|', 'c'] ['v']
    ∧ GenerateCacheKey String.mk ['a', '|', 'b'] ['c'] ['v']
        = GenerateCacheKey String.mk ['a'] ['b', '|', 'c'] ['v'] := by
  refine ⟨by decide, by decide, rfl⟩

/-- C8 (amended): the fingerprint is a deterministic function of the triple
(immediate: `GenerateCacheKey` is a pure function of its arguments), but
distinct triples *can* collide when a field contains the separator "|"
(see the counterexample); for triples whose text and endpoint contain no
"|" the pre-hash input is injective, so two such distinct triples receive
distinct hash inputs and can collide only through a SHA-256 collision. -/
theorem cache_key_injective_without_separator
    (t₁ s₁ v₁ t₂ s₂ v₂ : List Char)
    (ht₁ : '|' ∉ t₁) (ht₂ : '|' ∉ t₂) (hs₁ : '|' ∉ s₁) (hs₂ : '|' ∉ s₂)
    (h : combinedKeyInput t₁ s₁ v₁ = combinedKeyInput t₂ s₂ v₂) :
    t₁ = t₂ ∧ s₁ = s₂ ∧ v₁ = v₂ := by
  unfold combinedKeyInput at h
  obtain ⟨he₁, h'⟩ := append_sep_inj t₁ t₂ (s₁ ++ ('|' :: v₁)) (s₂ ++ ('|' :: v₂)) ht₁ ht₂ h
  obtain ⟨he₂, he₃⟩ := append_sep_inj s₁ s₂ v₁ v₂ hs₁ hs₂ h'
  exact ⟨he₁, he₂, he₃⟩

/-- C8 witness: separator-free fields recovered from their joined form. -/
theorem cache_key_injective_without_separator_witness :
    (['a'] : List Char) = ['a'] ∧ (['b'] : List Char) = ['b']
      ∧ (['c'] : List Char) = ['c'] :=
  cache_key_injective_without_separator ['a'] ['b'] ['c'] ['a'] ['b'] ['c']
    (by decide) (by decide) (by decide) (by decide) rfl

/-! ### Text sanitization — src/utils.h and src/tts_processor.cpp (C9) -/

/-- IsValidUTF8 (src/utils.h lines 43-68) over the byte string: ASCII
bytes advance by one; 2-, 3- and 4-byte lead bytes require that many
continuation bytes of the form 10xxxxxx; anything else is invalid.  (The
C++ sign-extension of `str[i+k]` before `& 0xC0` keeps the low 8 bits, so
`b &&& 0xC0` is its exact value.) -/
def IsValidUTF8 : List Nat → Bool
  | [] => true
  | c :: rest =>
    if c < 0x80 then IsValidUTF8 rest
    else if c &&& 0xE0 = 0xC0 then
      match rest with
      | c₁ :: rest₂ => if c₁ &&& 0xC0 = 0x80 then IsValidUTF8 rest₂ else false
      | [] => false
    else if c &&& 0xF0 = 0xE0 then
      match rest with
      | c₁ :: c₂ :: rest₃ =>
          if c₁ &&& 0xC0 = 0x80 then
            if c₂ &&& 0xC0 = 0x80 then IsValidUTF8 rest₃ else false
          else false
      | _ => false
    else if c &&& 0xF8 = 0xF0 then
      match rest with
      | c₁ :: c₂ :: c₃ :: rest₄ =>
          if c₁ &&& 0xC0 = 0x80 then
            if c₂ &&& 0xC0 = 0x80 then
              if c₃ &&& 0xC0 = 0x80 then IsValidUTF8 rest₄ else false
            else false
          else false
      | _ => false
    else false

/-- The text after `erase`/`remove` of null bytes
(src/utils.h line 73). -/
def strippedText (text : List Nat) : List Nat :=
  text.filter (fun c => decide (c ≠ 0))

/-- The text after the conditional `resize(5000)` (src/utils.h lines
80-83). -/
def truncatedText (text : List Nat) : List Nat :=
  if 5000 < (strippedText text).length then (strippedText text).take 5000
  else strippedText text

/-- SanitizeText (src/utils.h lines 70-86): erase every null byte, check
UTF-8 validity (which only logs a warning — the text is not modified),
truncate to 5000 bytes when longer, and return success iff the result is
nonempty. -/
def SanitizeText (text : List Nat) : List Nat × Bool :=
  (truncatedText text, !(truncatedText text).isEmpty)

inductive MarkAction where
  | markedReady (audio : List Nat)
  | markedFailed
deriving Repr, DecidableEq

/-- The observable effect of one fetch task: whether the network fetch was
reached, and which resolution call was made on the playback queue. -/
structure FetchTaskTrace where
  networkCalled : Bool
  action : MarkAction
deriving Repr, DecidableEq

/-- FetchAndEnqueueForPlayback (src/tts_processor.cpp lines 78-115),
abstracted over the cache lookup result and the network fetch result: a
cache hit marks ready without fetching; otherwise sanitization failure
marks the request failed with no network call; otherwise the fetch runs
and its empty/nonempty result selects MarkFailed/MarkReady. -/
def FetchAndEnqueueForPlayback (cacheHit : Option (List Nat)) (text : List Nat)
    (fetchResult : List Nat) : FetchTaskTrace :=
  match cacheHit with
  | some audio => { networkCalled := false, action := .markedReady audio }
  | none =>
      if (SanitizeText text).2 then
        if fetchResult.isEmpty then { networkCalled := true, action := .markedFailed }
        else { networkCalled := true, action := .markedReady fetchResult }
      else { networkCalled := false, action := .markedFailed }

/-- C9: sanitization removes every null byte, caps the result at 5000
bytes, and fails exactly when the result is empty; UTF-8 validity does not
gate processing — a non-UTF-8 text with nonnull content still sanitizes
successfully (the check only logs); and when sanitization fails, the fetch
task marks the request failed without any network call. -/
theorem sanitize_text_behavior (text fetchResult : List Nat) :
    (∀ c ∈ (SanitizeText text).1, c ≠ 0)
    ∧ ((SanitizeText text).1.length ≤ 5000)
    ∧ ((SanitizeText text).2 = true ↔ (SanitizeText text).1 ≠ [])
    ∧ (IsValidUTF8 text = false → text.filter (fun c => decide (c ≠ 0)) ≠ [] →
        (SanitizeText text).2 = true)
    ∧ ((SanitizeText text).2 = false →
        FetchAndEnqueueForPlayback none text fetchResult
          = { networkCalled := false, action := .markedFailed }) := by
  have hne_trunc : strippedText text ≠ [] → truncatedText text ≠ [] := by
    intro hne
    unfold truncatedText
    by_cases hl : 5000 < (strippedText text).length
    · rw [if_pos hl]
      intro htake
      have hlen := congrArg List.length htake
      rw [List.length_take] at hlen
      rcases Nat.min_eq_zero_iff.mp hlen with h | h <;> omega
    · rw [if_neg hl]
      exact hne
  refine ⟨?_, ?_, ?_, ?_, ?_⟩
  · intro c hc
    have hc₁ : c ∈ strippedText text := by
      unfold SanitizeText at hc
      unfold truncatedText at hc
      by_cases hl : 5000 < (strippedText text).length
      · rw [if_pos hl] at hc
        exact List.mem_of_mem_take hc
      · rwa [if_neg hl] at hc
    have := List.of_mem_filter hc₁
    simpa using this
  · show (truncatedText text).length ≤ 5000
    unfold truncatedText
    by_cases hl : 5000 < (strippedText text).length
    · rw [if_pos hl]
      simp
    · rw [if_neg hl]
      omega
  · show (!(truncatedText text).isEmpty) = true ↔ truncatedText text ≠ []
    simp [List.isEmpty_iff]
  · intro _ hne
    show (!(truncatedText text).isEmpty) = true
    simp [List.isEmpty_iff]
    exact hne_trunc hne
  · intro hfail
    unfold FetchAndEnqueueForPlayback
    rw [hfail]
    rfl

/-- C9 witness: the byte 200 is an invalid UTF-8 lead byte yet sanitization
succeeds on it; an all-null text fails sanitization and the task marks the
request failed without touching the network. -/
theorem sanitize_text_behavior_witness :
    IsValidUTF8 [200] = false
    ∧ (SanitizeText [200]).2 = true
    ∧ (SanitizeText [0, 0]).2 = false
    ∧ FetchAndEnqueueForPlayback none [0, 0] [5]
        = { networkCalled := false, action := .markedFailed } := by
  refine ⟨by decide, ?_, by decide, ?_⟩
  · exact (sanitize_text_behavior [200] []).2.2.2.1 (by decide) (by decide)
  · exact (sanitize_text_behavior [0, 0] [5]).2.2.2.2 (by decide)

end StellarisTTS
